import Mathlib

/-!
Verification of the multi-agent coordination tools (task queue, agent board,
knowledge store, workflow engine) against their natural-language specification.

The TypeScript sources are shallowly embedded as pure Lean functions:
JSON documents become structures over lists, JavaScript objects (string-keyed
maps with insertion order) become association lists whose assignment operator
replaces in place or appends, `Date.now()` becomes an explicit `now : Nat`
millisecond parameter, and the random ids minted by `crypto.randomUUID()`
become explicit `id` parameters.  The stable `Array.prototype.sort` required
by ECMAScript is modelled by insertion sort, which computes the same (unique)
stable sorted permutation.
-/

namespace OpenClaw

/-! ### Association lists

JavaScript object assignment `obj[k] = v` keeps the position of an existing
key and appends a new key; `obj[k]` reads the entry.  Both tools below
(knowledge store, workflow checkpoints) use plain objects this way. -/

/-- `obj[k] = v`: replace the first binding of `k` in place, else append. -/
def setAssoc (k : String) (v : α) : List (String × α) → List (String × α)
  | [] => [(k, v)]
  | (k', v') :: rest =>
      if k' = k then (k, v) :: rest else (k', v') :: setAssoc k v rest

/-- `obj[k]`: the value bound to `k`, if any. -/
def getAssoc (k : String) (l : List (String × α)) : Option α :=
  (l.find? (fun p => p.1 = k)).map (·.2)

/-- `Object.keys(obj)`. -/
def assocKeys (l : List (String × α)) : List String := l.map (·.1)

theorem getAssoc_setAssoc_self (k : String) (v : α) (l : List (String × α)) :
    getAssoc k (setAssoc k v l) = some v := by
  induction l with
  | nil => simp [setAssoc, getAssoc]
  | cons p rest ih =>
      by_cases h : p.1 = k
      · simp [setAssoc, getAssoc, h]
      · simp only [setAssoc]
        rw [if_neg h]
        simpa [getAssoc, List.find?, h] using ih

theorem getAssoc_setAssoc_ne (k k' : String) (hne : k' ≠ k) (v : α)
    (l : List (String × α)) :
    getAssoc k' (setAssoc k v l) = getAssoc k' l := by
  induction l with
  | nil => simp [setAssoc, getAssoc, List.find?, hne, Ne.symm hne]
  | cons p rest ih =>
      by_cases h : p.1 = k
      · subst h
        simp [setAssoc, getAssoc, List.find?, hne, Ne.symm hne]
      · simp only [setAssoc]
        rw [if_neg h]
        by_cases h2 : p.1 = k'
        · simp [getAssoc, List.find?, h2]
        · simpa [getAssoc, List.find?, h2] using ih

/-! ### Task queue (`task_queue` tool)

Embeds `createTaskQueueTool`: a JSON-file-backed queue `{tasks: TaskRecord[]}`
with actions add / claim / complete / fail / retry / clear (list and stats are
read-only and not needed by any claim).  The opaque `data` payload is a type
parameter `δ`. -/

inductive Priority where
  | high | normal | low
deriving DecidableEq, Repr

/-- `const priorityOrder = { high: 0, normal: 1, low: 2 }`. -/
def priorityOrder : Priority → Nat
  | .high => 0
  | .normal => 1
  | .low => 2

inductive TaskStatus where
  | pending | claimed | done | failed
deriving DecidableEq, Repr

structure TaskRecord (δ : Type) where
  id : String
  task : String
  data : Option δ := none
  priority : Priority
  status : TaskStatus
  retries : Nat
  maxRetries : Nat
  createdAt : Nat
  updatedAt : Nat
  claimedAt : Option Nat := none
  completedAt : Option Nat := none
  result : Option δ := none
  error : Option String := none
  tags : List String := []
deriving DecidableEq, Repr

structure QueueData (δ : Type) where
  tasks : List (TaskRecord δ)
deriving DecidableEq, Repr

/-- Mutating the object returned by `Array.prototype.find` (the first match)
in place: replace the first element satisfying `p` by its image under `f`. -/
def updateFirst (p : α → Bool) (f : α → α) : List α → List α
  | [] => []
  | x :: xs => if p x then f x :: xs else x :: updateFirst p f xs

/-- Result of the `add` action. -/
structure AddResult where
  id : String
  task : String
deriving DecidableEq, Repr

/-- `case "add"`: push a fresh pending record.  The random 8-char id minted by
`crypto.randomUUID().slice(0, 8)` is passed in as `id`. -/
def addTask (q : QueueData δ) (id task : String) (data : Option δ)
    (priority : Priority) (maxRetries : Nat) (tags : List String) (now : Nat) :
    QueueData δ × AddResult :=
  let record : TaskRecord δ :=
    { id := id, task := task, data := data, priority := priority
      status := .pending, retries := 0, maxRetries := maxRetries
      createdAt := now, updatedAt := now, tags := tags }
  ({ tasks := q.tasks ++ [record] }, { id := id, task := task })

/-- The comparator `priorityOrder[a.priority] - priorityOrder[b.priority] ||
a.createdAt - b.createdAt` reads "a sorts no later than b":
strictly higher priority, or equal priority and no larger `createdAt`. -/
def claimLE (a b : TaskRecord δ) : Prop :=
  priorityOrder a.priority < priorityOrder b.priority ∨
    (priorityOrder a.priority = priorityOrder b.priority ∧ a.createdAt ≤ b.createdAt)

instance : DecidableRel (α := TaskRecord δ) claimLE := fun a b => by
  unfold claimLE; infer_instance

inductive ClaimResult (δ : Type) where
  | empty
  | claimed (id : String) (task : String) (data : Option δ) (priority : Priority)
      (retries : Nat) (tags : List String)
deriving DecidableEq, Repr

/-- `case "claim"`: filter the pending tasks, stable-sort them by the
comparator, take the head, mark it claimed.  ECMAScript's `sort` is stable;
`List.insertionSort` computes the same stable sorted permutation. -/
def claimTask [DecidableEq δ] (q : QueueData δ) (now : Nat) :
    QueueData δ × ClaimResult δ :=
  let pending :=
    List.insertionSort claimLE (q.tasks.filter (fun t => t.status == .pending))
  match pending with
  | [] => (q, .empty)
  | t :: _ =>
      ({ tasks := updateFirst (fun u => u == t)
            (fun u => { u with status := .claimed, claimedAt := some now,
                               updatedAt := now }) q.tasks },
       .claimed t.id t.task t.data t.priority t.retries t.tags)

inductive CompleteResult where
  | not_found (id : String)
  | completed (id : String)
deriving DecidableEq, Repr

/-- `case "complete"`: find the task by id and mark it done. -/
def completeTask (q : QueueData δ) (id : String) (result : Option δ)
    (now : Nat) : QueueData δ × CompleteResult :=
  match q.tasks.find? (fun t => t.id == id) with
  | none => (q, .not_found id)
  | some _ =>
      ({ tasks := updateFirst (fun t => t.id == id)
            (fun t => { t with status := .done, completedAt := some now,
                               updatedAt := now, result := result }) q.tasks },
       .completed id)

inductive FailResult where
  | not_found (id : String)
  | retrying (id : String) (retries : Nat) (maxRetries : Nat)
  | failed (id : String) (retries : Nat) (error : String)
deriving DecidableEq, Repr

/-- `case "fail"`: increment `retries`, record the error, then decide — still
`retries < maxRetries` means back to pending (`retrying`), else `failed`. -/
def failTask (q : QueueData δ) (id : String) (error : String) (now : Nat) :
    QueueData δ × FailResult :=
  match q.tasks.find? (fun t => t.id == id) with
  | none => (q, .not_found id)
  | some t =>
      if t.retries + 1 < t.maxRetries then
        ({ tasks := updateFirst (fun u => u.id == id)
              (fun u => { u with retries := u.retries + 1, error := some error,
                                 updatedAt := now, status := .pending,
                                 claimedAt := none }) q.tasks },
         .retrying id (t.retries + 1) t.maxRetries)
      else
        ({ tasks := updateFirst (fun u => u.id == id)
              (fun u => { u with retries := u.retries + 1, error := some error,
                                 updatedAt := now, status := .failed }) q.tasks },
         .failed id (t.retries + 1) error)

inductive RetryResult where
  | not_found (id : String)
  | reset_to_pending (id : String)
deriving DecidableEq, Repr

/-- `case "retry"`: reset the task to pending, clearing `claimedAt` and
`error` but not `retries`. -/
def retryTask (q : QueueData δ) (id : String) (now : Nat) :
    QueueData δ × RetryResult :=
  match q.tasks.find? (fun t => t.id == id) with
  | none => (q, .not_found id)
  | some _ =>
      ({ tasks := updateFirst (fun t => t.id == id)
            (fun t => { t with status := .pending, claimedAt := none,
                               error := none, updatedAt := now }) q.tasks },
       .reset_to_pending id)

/-- `case "clear"`: keep pending and claimed tasks, and done/failed tasks
updated after the cutoff. -/
def clearTasks (q : QueueData δ) (cutoff : Nat) : QueueData δ :=
  { tasks := q.tasks.filter (fun t =>
      t.status == .pending || t.status == .claimed || cutoff < t.updatedAt) }

/-! ### C1: fail semantics of the retry policy

One task `"t1"` with a given `maxRetries`, taken through repeated
claim-then-fail cycles (the timestamps `2k+1`, `2k+2` are arbitrary but keep
the runs distinct). -/

/-- An empty queue after `add {task: "flaky", maxRetries: N}` (minted id `t1`). -/
def freshFlaky (N : Nat) : QueueData Unit :=
  (addTask { tasks := [] } "t1" "flaky" none .normal N [] 0).1

/-- One claim-then-fail round on the single-task queue. -/
def failCycle (q : QueueData Unit) (k : Nat) : QueueData Unit × FailResult :=
  failTask (claimTask q (2 * k + 1)).1 "t1" "err" (2 * k + 2)

/-- The queue after `k` claim-then-fail rounds on the fresh task. -/
def afterCycles (N : Nat) : Nat → QueueData Unit
  | 0 => freshFlaky N
  | k + 1 => (failCycle (afterCycles N k) k).1

/-- The task record while it is still pending after `k` fails. -/
def pendingRec (N : Nat) : Nat → TaskRecord Unit
  | 0 => { id := "t1", task := "flaky", priority := .normal, status := .pending,
           retries := 0, maxRetries := N, createdAt := 0, updatedAt := 0 }
  | k + 1 => { id := "t1", task := "flaky", priority := .normal, status := .pending,
               retries := k + 1, maxRetries := N, createdAt := 0,
               updatedAt := 2 * (k + 1), error := some "err" }

theorem failCycle_result (N k : Nat) :
    (failCycle { tasks := [pendingRec N k] } k).2 =
      if k + 1 < N then FailResult.retrying "t1" (k + 1) N
      else FailResult.failed "t1" (k + 1) "err" := by
  cases k with
  | zero =>
      by_cases hk : 0 + 1 < N <;>
        simp [failCycle, claimTask, failTask, updateFirst, pendingRec,
          List.filter, List.find?, hk]
  | succ m =>
      by_cases hk : m + 1 + 1 < N <;>
        simp [failCycle, claimTask, failTask, updateFirst, pendingRec,
          List.filter, List.find?, hk]

theorem failCycle_state (N k : Nat) (hk : k + 1 < N) :
    (failCycle { tasks := [pendingRec N k] } k).1.tasks = [pendingRec N (k + 1)] := by
  cases k with
  | zero =>
      simp [failCycle, claimTask, failTask, updateFirst, pendingRec,
        List.filter, List.find?, hk]
  | succ m =>
      simp [failCycle, claimTask, failTask, updateFirst, pendingRec,
        List.filter, List.find?, hk]
      omega

theorem afterCycles_tasks (N k : Nat) (h : k = 0 ∨ k < N) :
    (afterCycles N k).tasks = [pendingRec N k] := by
  induction k with
  | zero => simp [afterCycles, freshFlaky, addTask, pendingRec]
  | succ m ih =>
      have hk : m + 1 < N := by omega
      have hm : (afterCycles N m).tasks = [pendingRec N m] := ih (by omega)
      have hq : afterCycles N m = { tasks := [pendingRec N m] } := by
        cases hstate : afterCycles N m
        simp_all
      rw [afterCycles, hq, failCycle_state N m hk]

/-- Claim C1, as stated, is false: with `maxRetries = 1` the very first fail
already moves the task to `failed` (result status `"failed"`), whereas the
claim predicts result status `"retrying"` on each of the first `N = 1` fails
and `failed` only on the second. -/
theorem task_fail_counterexample :
    (failCycle (afterCycles 1 0) 0).2 = FailResult.failed "t1" 1 "err" ∧
      (failCycle (afterCycles 1 0) 0).2 ≠ FailResult.retrying "t1" 1 1 := by
  decide

/-- Claim C1 (amended): the failure decision is computed after incrementing
`retries`, so a task with `maxRetries = 0` becomes failed immediately on its
first fail, and a task with `maxRetries = N ≥ 1` is returned to pending
(result status `"retrying"`) on each of its first `N - 1` fails and becomes
failed on its `N`-th fail. -/
theorem task_fail_semantics_amended (N j : Nat) (hj : 1 ≤ j) :
    (j < N → (failCycle (afterCycles N (j - 1)) (j - 1)).2 =
        FailResult.retrying "t1" j N) ∧
      (j = N ∨ (N = 0 ∧ j = 1) →
        (failCycle (afterCycles N (j - 1)) (j - 1)).2 =
          FailResult.failed "t1" j "err") := by
  have hstate : ∀ h : (j - 1) = 0 ∨ (j - 1) < N,
      afterCycles N (j - 1) = { tasks := [pendingRec N (j - 1)] } := by
    intro h
    have := afterCycles_tasks N (j - 1) h
    cases hstate : afterCycles N (j - 1)
    simp_all
  constructor
  · intro hlt
    rw [hstate (by omega), failCycle_result]
    have hj1 : j - 1 + 1 = j := by omega
    rw [hj1, if_pos hlt]
  · intro hcase
    rw [hstate (by omega), failCycle_result]
    have hj1 : j - 1 + 1 = j := by omega
    rw [hj1, if_neg (by omega)]

/-- Witness for C1's amended theorem: `maxRetries = 2`, first fail retries. -/
theorem task_fail_semantics_amended_witness :
    (failCycle (afterCycles 2 0) 0).2 = FailResult.retrying "t1" 1 2 :=
  (task_fail_semantics_amended 2 1 (by decide)).1 (by decide)

/-! ### C2: state-machine conformance and invariants -/

inductive QueueEvent where
  | claim | complete | fail | retry
deriving DecidableEq, Repr

/-- Modelled from the spec: the §4.3 transition table (status-changing rows
for existing tasks).  Used to compare the spec's state machine with the
code's actual transitions. -/
def specTransitionAllowed : TaskStatus → QueueEvent → TaskStatus → Bool
  | .pending, .claim, .claimed => true
  | .claimed, .complete, .done => true
  | .claimed, .fail, .pending => true
  | .claimed, .fail, .failed => true
  | .failed, .retry, .pending => true
  | _, _, _ => false

theorem zip_self_eq {α : Type} (l : List α) : ∀ pr ∈ l.zip l, pr.1 = pr.2 := by
  induction l with
  | nil => simp
  | cons x xs ih =>
      intro pr hpr
      rw [List.zip_cons_cons] at hpr
      rcases List.mem_cons.1 hpr with h | h
      · subst h; rfl
      · exact ih _ h

theorem zip_updateFirst {α : Type} (p : α → Bool) (f : α → α) :
    ∀ l : List α, ∀ pr ∈ l.zip (updateFirst p f l),
      pr.2 = pr.1 ∨ (p pr.1 = true ∧ pr.2 = f pr.1) := by
  intro l
  induction l with
  | nil => simp
  | cons x xs ih =>
      intro pr hpr
      by_cases hx : p x
      · simp only [updateFirst, if_pos hx, List.zip_cons_cons] at hpr
        rcases List.mem_cons.1 hpr with h | h
        · subst h
          exact Or.inr ⟨hx, rfl⟩
        · exact Or.inl (zip_self_eq xs _ h).symm
      · simp only [updateFirst, if_neg hx, List.zip_cons_cons] at hpr
        rcases List.mem_cons.1 hpr with h | h
        · subst h
          exact Or.inl rfl
        · exact ih _ h

theorem find?_updateFirst_decomp {α : Type} (p : α → Bool) (f : α → α) :
    ∀ (l : List α) (t : α), l.find? p = some t →
      ∃ l₁ l₂, l = l₁ ++ t :: l₂ ∧ updateFirst p f l = l₁ ++ f t :: l₂ := by
  intro l
  induction l with
  | nil => intro t h; simp [List.find?] at h
  | cons x xs ih =>
      intro t h
      by_cases hx : p x
      · rw [List.find?_cons_of_pos _ hx] at h
        cases h
        exact ⟨[], xs, by simp, by simp [updateFirst, hx]⟩
      · rw [List.find?_cons_of_neg _ hx] at h
        obtain ⟨l₁, l₂, hl, hu⟩ := ih t h
        exact ⟨x :: l₁, l₂, by simp [hl], by simp [updateFirst, hx, hu]⟩

theorem mem_updateFirst {α : Type} {p : α → Bool} {f : α → α} :
    ∀ {l : List α} {t : α}, t ∈ updateFirst p f l →
      t ∈ l ∨ ∃ y, y ∈ l ∧ p y = true ∧ t = f y := by
  intro l
  induction l with
  | nil => intro t h; simp [updateFirst] at h
  | cons x xs ih =>
      intro t h
      by_cases hx : p x
      · simp only [updateFirst, if_pos hx] at h
        rcases List.mem_cons.1 h with h | h
        · exact Or.inr ⟨x, List.mem_cons_self x xs, hx, h⟩
        · exact Or.inl (List.mem_cons_of_mem _ h)
      · simp only [updateFirst, if_neg hx] at h
        rcases List.mem_cons.1 h with h | h
        · exact Or.inl (h ▸ List.mem_cons_self x xs)
        · rcases ih h with h2 | ⟨y, hy, hpy, hfy⟩
          · exact Or.inl (List.mem_cons_of_mem _ h2)
          · exact Or.inr ⟨y, List.mem_cons_of_mem _ hy, hpy, hfy⟩

/-- The per-task invariant of the spec's data model that the code maintains:
a done task has `completedAt` set, a failed task has `retries ≥ maxRetries`. -/
def TaskInv (t : TaskRecord δ) : Prop :=
  (t.status = .done → t.completedAt ≠ none) ∧
    (t.status = .failed → t.maxRetries ≤ t.retries)

/-- A state-mutating request to the task-queue tool. -/
inductive QueueAction (δ : Type) where
  | add (id task : String) (data : Option δ) (priority : Priority)
      (maxRetries : Nat) (tags : List String) (now : Nat)
  | claim (now : Nat)
  | complete (id : String) (result : Option δ) (now : Nat)
  | fail (id : String) (error : String) (now : Nat)
  | retry (id : String) (now : Nat)
  | clear (cutoff : Nat)

def applyAction [DecidableEq δ] (q : QueueData δ) : QueueAction δ → QueueData δ
  | .add id task data priority maxRetries tags now =>
      (addTask q id task data priority maxRetries tags now).1
  | .claim now => (claimTask q now).1
  | .complete id result now => (completeTask q id result now).1
  | .fail id error now => (failTask q id error now).1
  | .retry id now => (retryTask q id now).1
  | .clear cutoff => clearTasks q cutoff

/-- The queue a sequence of requests produces, starting from the empty
document `{tasks: []}` that `loadQueue` yields for a missing file. -/
def runActions [DecidableEq δ] (acts : List (QueueAction δ)) : QueueData δ :=
  acts.foldl applyAction { tasks := [] }

theorem taskInv_applyAction [DecidableEq δ] (q : QueueData δ)
    (hq : ∀ t ∈ q.tasks, TaskInv t) (a : QueueAction δ) :
    ∀ t ∈ (applyAction q a).tasks, TaskInv t := by
  cases a with
  | add id task data priority maxRetries tags now =>
      intro t ht
      simp only [applyAction, addTask, List.mem_append, List.mem_singleton] at ht
      rcases ht with h | h
      · exact hq t h
      · subst h
        exact ⟨by simp [TaskInv], by simp [TaskInv]⟩
  | claim now =>
      intro t ht
      simp only [applyAction, claimTask] at ht
      rcases hmatch : List.insertionSort claimLE
          (q.tasks.filter (fun t => t.status == .pending)) with _ | ⟨hd, tl⟩ <;>
        rw [hmatch] at ht
      · exact hq t ht
      · simp only at ht
        rcases mem_updateFirst ht with h | ⟨y, hy, _, hfy⟩
        · exact hq t h
        · subst hfy
          exact ⟨by intro h; simp at h, by intro h; simp at h⟩
  | complete id result now =>
      intro t ht
      simp only [applyAction, completeTask] at ht
      rcases hmatch : q.tasks.find? (fun t => t.id == id) with _ | t0 <;>
        rw [hmatch] at ht
      · exact hq t ht
      · simp only at ht
        rcases mem_updateFirst ht with h | ⟨y, hy, _, hfy⟩
        · exact hq t h
        · subst hfy
          exact ⟨by simp, by intro h; simp at h⟩
  | fail id error now =>
      intro t ht
      simp only [applyAction, failTask] at ht
      rcases hmatch : q.tasks.find? (fun t => t.id == id) with _ | t0 <;>
        rw [hmatch] at ht
      · exact hq t ht
      · by_cases hbr : t0.retries + 1 < t0.maxRetries <;>
          simp only [hbr, if_true, if_false, reduceIte] at ht
        · rcases mem_updateFirst ht with h | ⟨y, hy, _, hfy⟩
          · exact hq t h
          · subst hfy
            exact ⟨by intro h; simp at h, by intro h; simp at h⟩
        · obtain ⟨l₁, l₂, hl, hu⟩ :=
            find?_updateFirst_decomp (fun u => u.id == id)
              (fun u => { u with retries := u.retries + 1, error := some error,
                                 updatedAt := now, status := .failed })
              q.tasks t0 hmatch
          rw [hu] at ht
          rcases List.mem_append.1 ht with h | h
          · exact hq t (by rw [hl]; exact List.mem_append_left _ h)
          · rcases List.mem_cons.1 h with h | h
            · subst h
              refine ⟨by intro h; simp at h, ?_⟩
              intro _
              simp only
              omega
            · exact hq t (by rw [hl]; exact List.mem_append_right _ (List.mem_cons_of_mem _ h))
  | retry id now =>
      intro t ht
      simp only [applyAction, retryTask] at ht
      rcases hmatch : q.tasks.find? (fun t => t.id == id) with _ | t0 <;>
        rw [hmatch] at ht
      · exact hq t ht
      · simp only at ht
        rcases mem_updateFirst ht with h | ⟨y, hy, _, hfy⟩
        · exact hq t h
        · subst hfy
          exact ⟨by intro h; simp at h, by intro h; simp at h⟩
  | clear cutoff =>
      intro t ht
      simp only [applyAction, clearTasks] at ht
      exact hq t (List.mem_of_mem_filter ht)

theorem taskInv_foldl [DecidableEq δ] (acts : List (QueueAction δ)) :
    ∀ q : QueueData δ, (∀ t ∈ q.tasks, TaskInv t) →
      ∀ t ∈ (acts.foldl applyAction q).tasks, TaskInv t := by
  induction acts with
  | nil => intro q hq; exact hq
  | cons a rest ih =>
      intro q hq
      exact ih (applyAction q a) (taskInv_applyAction q hq a)

/-- A reachable queue with a single pending task of id `"a"`. -/
def pendingQ : QueueData Unit :=
  (addTask { tasks := [] } "a" "x" none .normal 3 [] 0).1

/-- Claim C2, as stated, is false: `complete` on a task that is still
`pending` (never claimed) moves it straight to `done`, a `pending → done`
status change that matches no row of the §4.3 transition table. -/
theorem task_state_machine_counterexample :
    pendingQ.tasks.map TaskRecord.status = [TaskStatus.pending] ∧
      (completeTask pendingQ "a" none 5).1.tasks.map TaskRecord.status =
        [TaskStatus.done] ∧
      specTransitionAllowed .pending .complete .done = false := by
  decide

/-- Claim C2 (amended): `claim` changes status only from `pending` to
`claimed`; `complete`, `fail` and `retry` apply their effects to the first
task with the given id regardless of its current status (`complete`: any
state to `done`, setting `completedAt`; `fail`: any state to `pending` or
`failed`, incrementing `retries`; `retry`: any state to `pending`, clearing
`error` and `claimedAt` without resetting `retries`); and for every queue
state reachable from the empty queue, a `done` task has `completedAt` set and
a `failed` task has `retries ≥ maxRetries`. -/
theorem task_state_machine_amended {δ : Type} [DecidableEq δ]
    (q : QueueData δ) (now : Nat) (id err : String) (res : Option δ)
    (acts : List (QueueAction δ)) :
    (∀ pr ∈ q.tasks.zip (claimTask q now).1.tasks,
        pr.2 = pr.1 ∨ (pr.1.status = .pending ∧
          pr.2 = { pr.1 with status := .claimed, claimedAt := some now, updatedAt := now })) ∧
    (∀ pr ∈ q.tasks.zip (completeTask q id res now).1.tasks,
        pr.2 = pr.1 ∨
          pr.2 = { pr.1 with status := .done, completedAt := some now, updatedAt := now, result := res }) ∧
    (∀ pr ∈ q.tasks.zip (failTask q id err now).1.tasks,
        pr.2 = pr.1 ∨
          pr.2 = { pr.1 with retries := pr.1.retries + 1, error := some err, updatedAt := now, status := .pending, claimedAt := none } ∨
          pr.2 = { pr.1 with retries := pr.1.retries + 1, error := some err, updatedAt := now, status := .failed }) ∧
    (∀ pr ∈ q.tasks.zip (retryTask q id now).1.tasks,
        pr.2 = pr.1 ∨
          pr.2 = { pr.1 with status := .pending, claimedAt := none, error := none, updatedAt := now }) ∧
    (∀ t ∈ (runActions acts).tasks, TaskInv t) := by
  refine ⟨?_, ?_, ?_, ?_, ?_⟩
  · intro pr hpr
    simp only [claimTask] at hpr
    rcases hmatch : List.insertionSort claimLE
        (q.tasks.filter (fun t => t.status == .pending)) with _ | ⟨hd, tl⟩ <;>
      rw [hmatch] at hpr
    · exact Or.inl (zip_self_eq _ _ hpr).symm
    · simp only at hpr
      rcases zip_updateFirst _ _ _ _ hpr with h | ⟨hp, hf⟩
      · exact Or.inl h
      · have heq : pr.1 = hd := by exact_mod_cast eq_of_beq hp
        have hmem : hd ∈ q.tasks.filter (fun t => t.status == .pending) := by
          have : hd ∈ List.insertionSort claimLE
              (q.tasks.filter (fun t => t.status == .pending)) := by
            rw [hmatch]; exact List.mem_cons_self _ _
          exact (List.perm_insertionSort claimLE _).mem_iff.1 this
        have hpend : hd.status = .pending := by
          have := List.of_mem_filter hmem
          simpa using this
        exact Or.inr ⟨heq ▸ hpend, by rw [hf, heq]⟩
  · intro pr hpr
    simp only [completeTask] at hpr
    rcases hmatch : q.tasks.find? (fun t => t.id == id) with _ | t0 <;>
      rw [hmatch] at hpr
    · exact Or.inl (zip_self_eq _ _ hpr).symm
    · simp only at hpr
      rcases zip_updateFirst _ _ _ _ hpr with h | ⟨_, hf⟩
      · exact Or.inl h
      · exact Or.inr hf
  · intro pr hpr
    simp only [failTask] at hpr
    rcases hmatch : q.tasks.find? (fun t => t.id == id) with _ | t0 <;>
      rw [hmatch] at hpr
    · exact Or.inl (zip_self_eq _ _ hpr).symm
    · by_cases hbr : t0.retries + 1 < t0.maxRetries <;>
        simp only [hbr, if_true, if_false, reduceIte] at hpr
      · rcases zip_updateFirst _ _ _ _ hpr with h | ⟨_, hf⟩
        · exact Or.inl h
        · exact Or.inr (Or.inl hf)
      · rcases zip_updateFirst _ _ _ _ hpr with h | ⟨_, hf⟩
        · exact Or.inl h
        · exact Or.inr (Or.inr hf)
  · intro pr hpr
    simp only [retryTask] at hpr
    rcases hmatch : q.tasks.find? (fun t => t.id == id) with _ | t0 <;>
      rw [hmatch] at hpr
    · exact Or.inl (zip_self_eq _ _ hpr).symm
    · simp only at hpr
      rcases zip_updateFirst _ _ _ _ hpr with h | ⟨_, hf⟩
      · exact Or.inl h
      · exact Or.inr hf
  · exact taskInv_foldl acts { tasks := [] } (by simp)

/-- The pair zipped by C2's amended theorem on `pendingQ` under `complete`. -/
def completePair : TaskRecord Unit × TaskRecord Unit :=
  ({ id := "a", task := "x", priority := .normal, status := .pending, retries := 0, maxRetries := 3, createdAt := 0, updatedAt := 0 },
   { id := "a", task := "x", priority := .normal, status := .done, retries := 0, maxRetries := 3, createdAt := 0, updatedAt := 5, completedAt := some 5 })

/-- Witness for C2's amended theorem: on the single-pending-task queue,
`complete` rewrites the task to `done` with `completedAt` set. -/
theorem task_state_machine_amended_witness :
    completePair.2 = completePair.1 ∨
      completePair.2 = { completePair.1 with status := .done, completedAt := some 5, updatedAt := 5, result := none } :=
  (task_state_machine_amended pendingQ 5 "a" "err" none []).2.1
    completePair (by decide)

/-! ### C6: claim ordering -/

instance : IsTotal (TaskRecord δ) claimLE := by
  constructor
  intro a b
  unfold claimLE
  by_cases h : priorityOrder a.priority = priorityOrder b.priority
  · rcases Nat.le_total a.createdAt b.createdAt with hc | hc
    · exact Or.inl (Or.inr ⟨h, hc⟩)
    · exact Or.inr (Or.inr ⟨h.symm, hc⟩)
  · rcases Nat.lt_or_ge (priorityOrder a.priority) (priorityOrder b.priority) with hlt | hge
    · exact Or.inl (Or.inl hlt)
    · exact Or.inr (Or.inl (by omega))

instance : IsTrans (TaskRecord δ) claimLE := by
  constructor
  intro a b c hab hbc
  unfold claimLE at *
  rcases hab with h1 | ⟨h1, h1c⟩ <;> rcases hbc with h2 | ⟨h2, h2c⟩
  · exact Or.inl (by omega)
  · exact Or.inl (by omega)
  · exact Or.inl (by omega)
  · exact Or.inr ⟨by omega, Nat.le_trans h1c h2c⟩

theorem claimLE_refl (t : TaskRecord δ) : claimLE t t :=
  Or.inr ⟨rfl, Nat.le_refl _⟩

/-- Claim C6: when the pending set is empty, `claim` returns result status
`"empty"`; otherwise `claim` selects a pending task that is minimal under the
order "priority rank (`high = 0, normal = 1, low = 2`), ties broken by
ascending `createdAt`" and marks exactly that task claimed with `claimedAt`
(and `updatedAt`) set to the current time. -/
theorem task_claim_ordering {δ : Type} [DecidableEq δ] (q : QueueData δ)
    (now : Nat) :
    (q.tasks.filter (fun t => t.status == .pending) = [] →
      (claimTask q now).2 = .empty) ∧
    (q.tasks.filter (fun t => t.status == .pending) ≠ [] →
      ∃ t, t ∈ q.tasks.filter (fun t => t.status == .pending) ∧
        (∀ u ∈ q.tasks.filter (fun t => t.status == .pending), claimLE t u) ∧
        (claimTask q now).2 =
          .claimed t.id t.task t.data t.priority t.retries t.tags ∧
        ∃ l₁ l₂, q.tasks = l₁ ++ t :: l₂ ∧
          (claimTask q now).1.tasks =
            l₁ ++ { t with status := .claimed, claimedAt := some now, updatedAt := now } :: l₂) := by
  constructor
  · intro hempty
    simp [claimTask, hempty]
  · intro hne
    rcases hmatch : List.insertionSort claimLE
        (q.tasks.filter (fun t => t.status == .pending)) with _ | ⟨hd, tl⟩
    · have hperm := List.perm_insertionSort claimLE
        (q.tasks.filter (fun t => t.status == .pending))
      rw [hmatch] at hperm
      exact absurd hperm.symm.eq_nil hne
    · refine ⟨hd, ?_, ?_, ?_, ?_⟩
      · have : hd ∈ List.insertionSort claimLE
            (q.tasks.filter (fun t => t.status == .pending)) := by
          rw [hmatch]; exact List.mem_cons_self _ _
        exact (List.perm_insertionSort claimLE _).mem_iff.1 this
      · intro u hu
        have hu2 : u ∈ hd :: tl := by
          rw [← hmatch]
          exact ((List.perm_insertionSort claimLE _).mem_iff).2 hu
        have hsorted : List.Sorted claimLE (hd :: tl) := by
          rw [← hmatch]
          exact List.sorted_insertionSort claimLE _
        rcases List.mem_cons.1 hu2 with h | h
        · exact h ▸ claimLE_refl hd
        · exact List.rel_of_sorted_cons hsorted u h
      · simp [claimTask, hmatch]
      · have hdmem : hd ∈ q.tasks := by
          have : hd ∈ List.insertionSort claimLE
              (q.tasks.filter (fun t => t.status == .pending)) := by
            rw [hmatch]; exact List.mem_cons_self _ _
          exact List.mem_of_mem_filter
            ((List.perm_insertionSort claimLE _).mem_iff.1 this)
        have hfind : ∃ u, q.tasks.find? (fun u => u == hd) = some u := by
          have : (q.tasks.find? (fun u => u == hd)).isSome := by
            rw [List.find?_isSome]
            exact ⟨hd, hdmem, by simp⟩
          exact Option.isSome_iff_exists.1 this
        obtain ⟨u, hu⟩ := hfind
        have huhd : u = hd := by
          have := List.find?_some hu
          exact_mod_cast eq_of_beq this
        subst huhd
        obtain ⟨l₁, l₂, hl, hupd⟩ := find?_updateFirst_decomp
          (fun v => v == u)
          (fun v => { v with status := .claimed, claimedAt := some now, updatedAt := now })
          q.tasks u hu
        exact ⟨l₁, l₂, hl, by simp [claimTask, hmatch, hupd]⟩

/-- A reachable queue holding three pending tasks: low, high, normal. -/
def threeQ : QueueData Unit :=
  (addTask (addTask (addTask { tasks := [] }
    "1" "low" none .low 3 [] 0).1
    "2" "high" none .high 3 [] 1).1
    "3" "normal" none .normal 3 [] 2).1

/-- Witness for C6: on the low/high/normal queue, `claim` picks the
high-priority task. -/
theorem task_claim_ordering_witness :
    ∃ t, t ∈ threeQ.tasks.filter (fun t => t.status == .pending) ∧
      (∀ u ∈ threeQ.tasks.filter (fun t => t.status == .pending), claimLE t u) ∧
      (claimTask threeQ 7).2 =
        .claimed t.id t.task t.data t.priority t.retries t.tags ∧
      ∃ l₁ l₂, threeQ.tasks = l₁ ++ t :: l₂ ∧
        (claimTask threeQ 7).1.tasks =
          l₁ ++ { t with status := .claimed, claimedAt := some 7, updatedAt := 7 } :: l₂ :=
  (task_claim_ordering threeQ 7).2 (by decide)

/-! ### Knowledge store (`knowledge_store` tool)

Embeds `createKnowledgeStoreTool`: a JSON document
`{category → {key → {data, createdAt, updatedAt, tags?}}}`, modelled as nested
association lists.  ISO-8601 rendering of the millisecond timestamps is kept
as the raw `Nat`.  The opaque `data` payload is a type parameter `δ`. -/

structure KEntry (δ : Type) where
  data : δ
  createdAt : Nat
  updatedAt : Nat
  tags : Option (List String) := none
deriving DecidableEq, Repr

/-- `{[category: string]: {[key: string]: entry}}`. -/
abbrev StoreData (δ : Type) := List (String × List (String × KEntry δ))

inductive SetResult where
  | error_data_required
  | created (category key : String)
  | updated (category key : String)
deriving DecidableEq, Repr

/-- `tags?.length ? { tags } : {}`: only a non-empty list is kept. -/
def effectiveTags (tags : Option (List String)) : Option (List String) :=
  match tags with
  | some l => if l.isEmpty then none else some l
  | none => none

/-- `case "set"`: requires `data`; builds a fresh entry keeping only
`createdAt` from an existing one. -/
def storeSet (st : StoreData δ) (category key : String) (data : Option δ)
    (tags : Option (List String)) (now : Nat) : StoreData δ × SetResult :=
  match data with
  | none => (st, .error_data_required)
  | some d =>
      let cat := (getAssoc category st).getD []
      let existing := getAssoc key cat
      let entry : KEntry δ :=
        { data := d, createdAt := (existing.map (·.createdAt)).getD now,
          updatedAt := now, tags := effectiveTags tags }
      (setAssoc category (setAssoc key entry cat) st,
       if existing.isSome then .updated category key else .created category key)

inductive GetResult (δ : Type) where
  | not_found (category key : String)
  | ok (category key : String) (data : δ) (createdAt updatedAt : Nat)
      (tags : Option (List String))
deriving DecidableEq, Repr

/-- `case "get"`: `store[category]?.[key]`, rendering the entry. -/
def storeGet (st : StoreData δ) (category key : String) : GetResult δ :=
  match getAssoc key ((getAssoc category st).getD []) with
  | none => .not_found category key
  | some e => .ok category key e.data e.createdAt e.updatedAt (effectiveTags e.tags)

theorem effectiveTags_idem (tags : Option (List String)) :
    effectiveTags (effectiveTags tags) = effectiveTags tags := by
  rcases tags with _ | l
  · rfl
  · by_cases h : l.isEmpty <;> simp [effectiveTags, h]

/-- Claim C7: `set` then `get` on the same `(category, key)` returns the same
`data`; a second `set` preserves the entry's `createdAt`, and its `updatedAt`
is monotone non-decreasing (given the clock `t1 ≤ t2`). -/
theorem knowledge_roundtrip {δ : Type} (st : StoreData δ) (c k : String)
    (d d2 : δ) (tags tags2 : Option (List String)) (t1 t2 : Nat)
    (hmono : t1 ≤ t2) :
    ∃ cA : Nat,
      storeGet (storeSet st c k (some d) tags t1).1 c k =
        .ok c k d cA t1 (effectiveTags tags) ∧
      storeGet (storeSet (storeSet st c k (some d) tags t1).1 c k
          (some d2) tags2 t2).1 c k =
        .ok c k d2 cA t2 (effectiveTags tags2) ∧
      (storeSet (storeSet st c k (some d) tags t1).1 c k
          (some d2) tags2 t2).2 = .updated c k ∧
      t1 ≤ t2 := by
  refine ⟨((getAssoc k ((getAssoc c st).getD [])).map (·.createdAt)).getD t1,
    ?_, ?_, ?_, hmono⟩
  · simp [storeSet, storeGet, getAssoc_setAssoc_self, effectiveTags_idem]
  · simp [storeSet, storeGet, getAssoc_setAssoc_self, effectiveTags_idem]
  · simp [storeSet, getAssoc_setAssoc_self]

/-- Witness for C7: a concrete double set-and-get round trip. -/
theorem knowledge_roundtrip_witness :
    ∃ cA : Nat,
      storeGet (storeSet ([] : StoreData String) "contacts" "sean"
          (some "v1") (some ["x"]) 10).1 "contacts" "sean" =
        .ok "contacts" "sean" "v1" cA 10 (effectiveTags (some ["x"])) ∧
      storeGet (storeSet (storeSet ([] : StoreData String) "contacts" "sean"
          (some "v1") (some ["x"]) 10).1 "contacts" "sean"
          (some "v2") none 20).1 "contacts" "sean" =
        .ok "contacts" "sean" "v2" cA 20 (effectiveTags none) ∧
      (storeSet (storeSet ([] : StoreData String) "contacts" "sean"
          (some "v1") (some ["x"]) 10).1 "contacts" "sean"
          (some "v2") none 20).2 = .updated "contacts" "sean" ∧
      (10 : Nat) ≤ 20 :=
  knowledge_roundtrip [] "contacts" "sean" "v1" "v2" (some ["x"]) none 10 20
    (by decide)

/-- Claim C10: a `set` on an existing `(category, key)` replaces the stored
tags rather than preserving them — with no `tags` argument (or an empty one)
the new entry has no tags field, and only `createdAt` is carried over from
the old entry. -/
theorem knowledge_set_replaces_tags {δ : Type} (st : StoreData δ)
    (c k : String) (e : KEntry δ) (ts : List String)
    (he : getAssoc k ((getAssoc c st).getD []) = some e)
    (htags0 : e.tags = some ts)
    (d2 : δ) (tagsArg : Option (List String))
    (htags : tagsArg = none ∨ tagsArg = some []) (t2 : Nat) :
    getAssoc k ((getAssoc c ((storeSet st c k (some d2) tagsArg t2).1)).getD [])
        = some { data := d2, createdAt := e.createdAt, updatedAt := t2,
                 tags := none } ∧
      (storeSet st c k (some d2) tagsArg t2).2 = .updated c k := by
  have hefft : effectiveTags tagsArg = none := by
    rcases htags with h | h <;> subst h <;> simp [effectiveTags]
  constructor
  · simp [storeSet, getAssoc_setAssoc_self, he, hefft]
  · simp [storeSet, he]

/-- Witness for C10: overwriting a tagged entry without tags drops the tags. -/
theorem knowledge_set_replaces_tags_witness :
    getAssoc "sean" ((getAssoc "contacts"
        ((storeSet [("contacts",
            [("sean", ({ data := "v1", createdAt := 3, updatedAt := 4,
                         tags := some ["vip"] } : KEntry String))])]
          "contacts" "sean" (some "v2") none 9).1)).getD [])
        = some { data := "v2", createdAt := 3, updatedAt := 9, tags := none } ∧
      (storeSet [("contacts",
          [("sean", ({ data := "v1", createdAt := 3, updatedAt := 4,
                       tags := some ["vip"] } : KEntry String))])]
        "contacts" "sean" (some "v2") none 9).2 = .updated "contacts" "sean" :=
  knowledge_set_replaces_tags
    [("contacts", [("sean", { data := "v1", createdAt := 3, updatedAt := 4,
                              tags := some ["vip"] })])]
    "contacts" "sean"
    { data := "v1", createdAt := 3, updatedAt := 4, tags := some ["vip"] }
    ["vip"] (by decide) (by decide) "v2" none (Or.inl rfl) 9

/-! ### Agent board (`agent_board` tool)

Embeds the `read` action of `createAgentBoardTool`.  A board is the list of
messages parsed from its JSONL file; the ISO rendering of the reply maps
fields one-to-one, so the raw records are returned. -/

structure BoardMessage where
  id : String
  board : String
  «from» : String
  message : String
  timestamp : Nat
  tags : Option (List String) := none
deriving DecidableEq, Repr

/-- The `since` parameter as the code branches on it: absent, the
`"last_read"` sentinel, or an ISO string whose `new Date(s).getTime()` is
either a millisecond value or `NaN` (`iso none`). -/
inductive SinceParam where
  | noSince
  | lastRead
  | iso (ms : Option Nat)
deriving DecidableEq, Repr

/-- `case "read"`: optional `since` filtering, then `messages.slice(-limit)`
(the last `limit` messages; the schema requires `limit ≥ 1`, default 50). -/
def boardRead (msgs : List BoardMessage) (since : SinceParam) (limit : Nat) :
    List BoardMessage :=
  let filtered :=
    match since with
    | .noSince => msgs
    | .lastRead => msgs
    | .iso none => msgs
    | .iso (some ms) => msgs.filter (fun m => ms < m.timestamp)
  filtered.drop (filtered.length - limit)

/-- Three messages on one board. -/
def msgA : BoardMessage :=
  { id := "1-a", board := "b", «from» := "x", message := "m1", timestamp := 1 }

def msgB : BoardMessage :=
  { id := "2-b", board := "b", «from» := "y", message := "m2", timestamp := 2 }

def msgC : BoardMessage :=
  { id := "3-c", board := "b", «from» := "z", message := "m3", timestamp := 3 }

/-- Claim C3, as stated, is false: on a board of three messages a read with
`since = "last_read"` and `limit = 2` returns only the last two messages, not
all messages of the board. -/
theorem board_last_read_counterexample :
    boardRead [msgA, msgB, msgC] .lastRead 2 = [msgB, msgC] ∧
      boardRead [msgA, msgB, msgC] .lastRead 2 ≠ [msgA, msgB, msgC] := by
  decide

/-- Claim C3 (amended): `since = "last_read"` merely skips the timestamp
filter — it behaves exactly like omitting `since` — and the tail `limit`
still applies, so all messages of the board are returned exactly when the
board holds at most `limit` messages. -/
theorem board_last_read_amended (msgs : List BoardMessage) (limit : Nat) :
    boardRead msgs .lastRead limit = boardRead msgs .noSince limit ∧
      boardRead msgs .lastRead limit = msgs.drop (msgs.length - limit) ∧
      (msgs.length ≤ limit → boardRead msgs .lastRead limit = msgs) := by
  refine ⟨rfl, rfl, ?_⟩
  intro hle
  simp [boardRead, Nat.sub_eq_zero_of_le hle]

/-- Witness for C3's amended theorem: two messages fit under the default
limit of 50, so `last_read` returns the whole board. -/
theorem board_last_read_amended_witness :
    boardRead [msgA, msgB] .lastRead 50 = boardRead [msgA, msgB] .noSince 50 ∧
      boardRead [msgA, msgB] .lastRead 50 =
        [msgA, msgB].drop ([msgA, msgB].length - 50) ∧
      boardRead [msgA, msgB] .lastRead 50 = [msgA, msgB] :=
  ⟨(board_last_read_amended [msgA, msgB] 50).1,
   (board_last_read_amended [msgA, msgB] 50).2.1,
   (board_last_read_amended [msgA, msgB] 50).2.2 (by decide)⟩

/-! ### Workflow engine (`workflow_run` tool)

Embeds `createWorkflowTool` and its three pattern executors.  The gateway
interaction of `executeStep` (spawn, poll, timeout) is abstracted by an
oracle `String → Except String StepOutcome` giving each step's outcome: a
result with its duration, or the message of the raised error — each step name
is executed at most once per run, so a per-name oracle is faithful.  Prompt
construction (`passContext`) does not influence control flow and is not
modelled.  `saveCheckpoint`'s file write is a side effect with no bearing on
the claims; the final `fs.unlink` is modelled as a Boolean. -/

inductive WfPattern where
  | sequential | parallel | dag
deriving DecidableEq, Repr

structure WorkflowStep where
  name : String
  task : String
  model : Option String := none
  thinking : Option String := none
  dependsOn : List String := []
  timeoutSeconds : Option Nat := none
deriving DecidableEq, Repr

structure StepOutcome where
  result : String
  durationMs : Nat
deriving DecidableEq, Repr

inductive CkptStatus where
  | in_progress | done | failed
deriving DecidableEq, Repr

structure WorkflowCheckpoint where
  workflowId : String
  pattern : WfPattern
  steps : List String
  completed : List (String × StepOutcome)
  failed : List (String × String)
  status : CkptStatus
  startedAt : Nat
  updatedAt : Nat
deriving DecidableEq, Repr

/-- Outcome of one `executeStep` call for a given step name. -/
abbrev StepOracle := String → Except String StepOutcome

/-- `checkpoint.completed[name] = {...}` or `checkpoint.failed[name] = {...}`,
depending on whether the step settled fulfilled or rejected. -/
def recordStepResult (cp : WorkflowCheckpoint) (name : String) :
    Except String StepOutcome → WorkflowCheckpoint
  | .ok r => { cp with completed := setAssoc name r cp.completed }
  | .error e => { cp with failed := setAssoc name e cp.failed }

/-- `executeSequential`: skip completed steps, stop at the first failure with
status `failed`, else finish with status `done`.  Also returns the names of
the steps it actually spawned. -/
def executeSequentialGo (oracle : StepOracle) :
    List WorkflowStep → WorkflowCheckpoint → List String →
      WorkflowCheckpoint × List String
  | [], cp, sp => ({ cp with status := .done }, sp)
  | s :: rest, cp, sp =>
      if (getAssoc s.name cp.completed).isSome then
        executeSequentialGo oracle rest cp sp
      else
        match oracle s.name with
        | .ok r =>
            executeSequentialGo oracle rest
              { cp with completed := setAssoc s.name r cp.completed }
              (sp ++ [s.name])
        | .error e =>
            ({ cp with failed := setAssoc s.name e cp.failed, status := .failed },
             sp ++ [s.name])

def executeSequential (oracle : StepOracle) (steps : List WorkflowStep)
    (cp : WorkflowCheckpoint) : WorkflowCheckpoint × List String :=
  executeSequentialGo oracle steps cp []

/-- `executeParallel`: run every not-yet-completed step, record all outcomes,
status `failed` iff the failed map is non-empty. -/
def executeParallel (oracle : StepOracle) (steps : List WorkflowStep)
    (cp : WorkflowCheckpoint) : WorkflowCheckpoint × List String :=
  let pending := steps.filter (fun s => !(getAssoc s.name cp.completed).isSome)
  let cp1 := pending.foldl (fun c s => recordStepResult c s.name (oracle s.name)) cp
  ({ cp1 with status := if cp1.failed.length > 0 then .failed else .done },
   pending.map (·.name))

/-- The steps whose run the next DAG round starts: not yet completed or
failed, and every dependency completed. -/
def readySteps (steps : List WorkflowStep) (cp : WorkflowCheckpoint) :
    List WorkflowStep :=
  steps.filter (fun s =>
    !((getAssoc s.name cp.completed).isSome || (getAssoc s.name cp.failed).isSome) &&
      s.dependsOn.all (fun d => (getAssoc d cp.completed).isSome))

/-- One DAG round: run all ready steps, record each outcome in order. -/
def dagRound (oracle : StepOracle) (cp : WorkflowCheckpoint)
    (ready : List WorkflowStep) : WorkflowCheckpoint :=
  ready.foldl (fun c s => recordStepResult c s.name (oracle s.name)) cp

/-- The `for (let iter = 0; iter < maxIterations; iter++)` loop of
`executeDag`, breaking when no step is ready. -/
def dagLoop (oracle : StepOracle) (steps : List WorkflowStep) :
    Nat → WorkflowCheckpoint → WorkflowCheckpoint × List String
  | 0, cp => (cp, [])
  | fuel + 1, cp =>
      let ready := readySteps steps cp
      if ready.isEmpty then (cp, [])
      else
        let next := dagLoop oracle steps fuel (dagRound oracle cp ready)
        (next.1, ready.map (·.name) ++ next.2)

/-- `executeDag`: at most `steps.length` rounds, then the final status —
`done` iff everything processed and nothing failed, else `failed`
(`stuck = failed`). -/
def executeDag (oracle : StepOracle) (steps : List WorkflowStep)
    (cp : WorkflowCheckpoint) : WorkflowCheckpoint × List String :=
  let next := dagLoop oracle steps steps.length cp
  let cp1 := next.1
  let allProcessed := cp1.completed.length + cp1.failed.length = steps.length
  ({ cp1 with status :=
      if allProcessed then
        (if cp1.failed.length > 0 then .failed else .done)
      else .failed },
   next.2)

/-- `label.replace(/[^a-zA-Z0-9_-]/g, "_")`. -/
def sanitizeLabel (label : String) : String :=
  String.map (fun c => if c.isAlphanum || c = '_' || c = '-' then c else '_') label

/-- A fresh checkpoint: empty `completed` and `failed`, status `in_progress`. -/
def freshCheckpoint (workflowId : String) (pattern : WfPattern)
    (stepNames : List String) (now : Nat) : WorkflowCheckpoint :=
  { workflowId := workflowId, pattern := pattern, steps := stepNames,
    completed := [], failed := [], status := .in_progress,
    startedAt := now, updatedAt := now }

/-- The checkpoint load-or-create of `createWorkflowTool`: an existing
checkpoint is consulted only under `resume`, and adopted when
`existing.steps.join(",") === steps.map(s => s.name).join(",")`. -/
def chooseCheckpoint (resume : Bool) (existing : Option WorkflowCheckpoint)
    (workflowId : String) (pattern : WfPattern) (stepNames : List String)
    (now : Nat) : WorkflowCheckpoint :=
  match (if resume then existing else none) with
  | some cp =>
      if String.intercalate "," cp.steps = String.intercalate "," stepNames then
        { cp with status := .in_progress }
      else freshCheckpoint workflowId pattern stepNames now
  | none => freshCheckpoint workflowId pattern stepNames now

/-! ### C4: checkpoint adoption -/

/-- A saved checkpoint whose single step is named `"a,b"`. -/
def commaCp : WorkflowCheckpoint :=
  { workflowId := "w", pattern := .dag, steps := ["a,b"],
    completed := [("a,b", { result := "r", durationMs := 1 })], failed := [],
    status := .failed, startedAt := 0, updatedAt := 0 }

/-- Claim C4, as stated, is false: a resume requesting the two steps
`["a", "b"]` adopts a checkpoint whose step sequence is the single step
`["a,b"]` — two distinct sequences are treated as equal because the code
compares their comma-joins. -/
theorem workflow_adoption_counterexample :
    chooseCheckpoint true (some commaCp) "w" .dag ["a", "b"] 9 =
        { commaCp with status := .in_progress } ∧
      commaCp.steps ≠ ["a", "b"] ∧
      (chooseCheckpoint true (some commaCp) "w" .dag ["a", "b"] 9).completed ≠ [] := by
  decide

/-- Claim C4 (amended): a previously saved checkpoint is adopted (keeping its
`completed` and `failed` maps and setting status back to `in_progress`)
exactly when `resume` is true and the comma-joined step-name strings are
equal; in every other case a fresh checkpoint with empty maps is started.
Sequence equality implies join equality, but distinct sequences whose joins
coincide (names containing commas) are also adopted. -/
theorem workflow_adoption_amended (resume : Bool)
    (existing : Option WorkflowCheckpoint) (wid : String) (pat : WfPattern)
    (names : List String) (now : Nat) :
    (∃ cp, (if resume then existing else none) = some cp ∧
        String.intercalate "," cp.steps = String.intercalate "," names ∧
        chooseCheckpoint resume existing wid pat names now =
          { cp with status := .in_progress }) ∨
      (chooseCheckpoint resume existing wid pat names now =
          freshCheckpoint wid pat names now ∧
        ∀ cp, (if resume then existing else none) = some cp →
          String.intercalate "," cp.steps ≠ String.intercalate "," names) := by
  rcases hex : (if resume then existing else none) with _ | cp
  · refine Or.inr ⟨?_, by simp⟩
    simp [chooseCheckpoint, hex]
  · by_cases hj : String.intercalate "," cp.steps = String.intercalate "," names
    · refine Or.inl ⟨cp, rfl, hj, ?_⟩
      simp [chooseCheckpoint, hex, hj]
    · refine Or.inr ⟨?_, ?_⟩
      · simp [chooseCheckpoint, hex, hj]
      · intro cp' hcp'
        cases Option.some.inj hcp'
        exact hj

/-! ### C5: DAG executor outcome -/

theorem getAssoc_isSome_iff (k : String) (l : List (String × α)) :
    (getAssoc k l).isSome = true ↔ k ∈ assocKeys l := by
  induction l with
  | nil => simp [getAssoc, assocKeys]
  | cons p rest ih =>
      by_cases h : p.1 = k
      · rw [getAssoc, List.find?_cons_of_pos _ (by simp [h])]
        simp [assocKeys, h]
      · rw [getAssoc, List.find?_cons_of_neg _ (by simp [h])]
        rw [show ((rest.find? (fun p => p.1 = k)).map (·.2)).isSome =
            (getAssoc k rest).isSome from rfl]
        simp only [assocKeys, List.map_cons, List.mem_cons]
        rw [ih]
        constructor
        · exact fun hm => Or.inr hm
        · rintro (hm | hm)
          · exact absurd hm.symm h
          · exact hm

theorem setAssoc_fresh (k : String) (v : α) (l : List (String × α))
    (h : k ∉ assocKeys l) : setAssoc k v l = l ++ [(k, v)] := by
  induction l with
  | nil => rfl
  | cons p rest ih =>
      simp only [assocKeys, List.map_cons, List.mem_cons] at h
      push_neg at h
      simp only [setAssoc]
      rw [if_neg (fun hh => h.1 hh.symm), ih (by simpa [assocKeys] using h.2)]
      simp

theorem assocKeys_append (l1 l2 : List (String × α)) :
    assocKeys (l1 ++ l2) = assocKeys l1 ++ assocKeys l2 := by
  simp [assocKeys]

/-- The names a checkpoint has processed: completed keys then failed keys. -/
def CkptKeys (cp : WorkflowCheckpoint) : List String :=
  assocKeys cp.completed ++ assocKeys cp.failed

theorem recordStepResult_spec (cp : WorkflowCheckpoint) (n : String)
    (out : Except String StepOutcome) (hn : n ∉ CkptKeys cp)
    (hnd : (CkptKeys cp).Nodup) :
    (∀ m, m ∈ CkptKeys (recordStepResult cp n out) ↔ m ∈ CkptKeys cp ∨ m = n) ∧
      (CkptKeys (recordStepResult cp n out)).Nodup ∧
      (recordStepResult cp n out).completed.length +
          (recordStepResult cp n out).failed.length
        = cp.completed.length + cp.failed.length + 1 := by
  have hnc : n ∉ assocKeys cp.completed :=
    fun hh => hn (List.mem_append_left _ hh)
  have hnf : n ∉ assocKeys cp.failed :=
    fun hh => hn (List.mem_append_right _ hh)
  rcases out with e | r
  · -- rejected: goes to `failed`
    have hkeys : CkptKeys (recordStepResult cp n (.error e)) =
        assocKeys cp.completed ++ (assocKeys cp.failed ++ [n]) := by
      simp [recordStepResult, CkptKeys, setAssoc_fresh n e cp.failed hnf,
        assocKeys_append, assocKeys]
    refine ⟨?_, ?_, ?_⟩
    · intro m
      rw [hkeys]
      simp [CkptKeys, or_assoc]
    · rw [hkeys, ← List.append_assoc]
      have hperm : List.Perm ((assocKeys cp.completed ++ assocKeys cp.failed) ++ [n])
          (n :: (assocKeys cp.completed ++ assocKeys cp.failed)) :=
        List.perm_append_singleton n _
      exact hperm.nodup_iff.2 (List.nodup_cons.2 ⟨hn, hnd⟩)
    · simp [recordStepResult, setAssoc_fresh n e cp.failed hnf]
      omega
  · -- fulfilled: goes to `completed`
    have hkeys : CkptKeys (recordStepResult cp n (.ok r)) =
        (assocKeys cp.completed ++ [n]) ++ assocKeys cp.failed := by
      simp [recordStepResult, CkptKeys, setAssoc_fresh n r cp.completed hnc,
        assocKeys_append, assocKeys]
    refine ⟨?_, ?_, ?_⟩
    · intro m
      rw [hkeys]
      simp [CkptKeys]
      tauto
    · rw [hkeys, List.append_assoc]
      have hperm : List.Perm (assocKeys cp.completed ++ ([n] ++ assocKeys cp.failed))
          (n :: (assocKeys cp.completed ++ assocKeys cp.failed)) :=
        List.perm_middle
      exact hperm.nodup_iff.2 (List.nodup_cons.2 ⟨hn, hnd⟩)
    · simp [recordStepResult, setAssoc_fresh n r cp.completed hnc]
      omega

theorem dagRound_spec (oracle : StepOracle) (names : List String) :
    ∀ (rs : List WorkflowStep) (cp : WorkflowCheckpoint),
      (∀ s ∈ rs, s.name ∈ names ∧ s.name ∉ CkptKeys cp) →
      (rs.map (·.name)).Nodup →
      (∀ m ∈ CkptKeys cp, m ∈ names) →
      (CkptKeys cp).Nodup →
      (∀ m ∈ CkptKeys (dagRound oracle cp rs), m ∈ names) ∧
        (CkptKeys (dagRound oracle cp rs)).Nodup ∧
        ((dagRound oracle cp rs).completed.length +
            (dagRound oracle cp rs).failed.length
          = cp.completed.length + cp.failed.length + rs.length) ∧
        (∀ m, m ∈ CkptKeys (dagRound oracle cp rs) ↔
          m ∈ CkptKeys cp ∨ m ∈ rs.map (·.name)) := by
  intro rs
  induction rs with
  | nil =>
      intro cp _ _ hsub hnd
      exact ⟨hsub, hnd, by simp [dagRound], by simp [dagRound]⟩
  | cons s rest ih =>
      intro cp hfresh hrsnd hsub hnd
      have hs := hfresh s (List.mem_cons_self s rest)
      obtain ⟨hrec_mem, hrec_nd, hrec_len⟩ :=
        recordStepResult_spec cp s.name (oracle s.name) hs.2 hnd
      have hstep : dagRound oracle cp (s :: rest) =
          dagRound oracle (recordStepResult cp s.name (oracle s.name)) rest := rfl
      simp only [List.map_cons, List.nodup_cons] at hrsnd
      have hih := ih (recordStepResult cp s.name (oracle s.name))
        (by
          intro s' hs'
          refine ⟨(hfresh s' (List.mem_cons_of_mem _ hs')).1, ?_⟩
          rw [hrec_mem s'.name]
          push_neg
          refine ⟨(hfresh s' (List.mem_cons_of_mem _ hs')).2, ?_⟩
          intro hcontra
          exact hrsnd.1 (hcontra ▸ List.mem_map_of_mem (·.name) hs'))
        hrsnd.2
        (by
          intro m hm
          rcases (hrec_mem m).1 hm with h | h
          · exact hsub m h
          · exact h ▸ hs.1)
        hrec_nd
      refine ⟨hstep ▸ hih.1, hstep ▸ hih.2.1, ?_, ?_⟩
      · rw [hstep]
        rw [hih.2.2.1, hrec_len]
        simp
        omega
      · intro m
        rw [hstep, hih.2.2.2 m, hrec_mem m]
        simp only [List.map_cons, List.mem_cons]
        tauto

/-- The `completed[s.name] || failed[s.name]` guard of the DAG executor,
negated: the step has not been processed yet. -/
def notProcessed (cp : WorkflowCheckpoint) (s : WorkflowStep) : Bool :=
  !((getAssoc s.name cp.completed).isSome || (getAssoc s.name cp.failed).isSome)

theorem notProcessed_iff (cp : WorkflowCheckpoint) (s : WorkflowStep) :
    notProcessed cp s = true ↔ s.name ∉ CkptKeys cp := by
  simp only [notProcessed, Bool.not_eq_true', Bool.or_eq_false_iff, CkptKeys,
    List.mem_append]
  rw [← Bool.not_eq_true (getAssoc s.name cp.completed).isSome,
    ← Bool.not_eq_true (getAssoc s.name cp.failed).isSome]
  rw [getAssoc_isSome_iff, getAssoc_isSome_iff]
  tauto

theorem countP_split (p q : α → Bool) (l : List α) :
    l.countP p = l.countP (fun a => p a && q a) + l.countP (fun a => p a && !q a) := by
  induction l with
  | nil => simp
  | cons x xs ih =>
      by_cases hp : p x <;> by_cases hq : q x <;>
        simp [List.countP_cons, hp, hq, ih] <;> omega

theorem readySteps_sub_notProcessed (steps : List WorkflowStep)
    (cp : WorkflowCheckpoint) (s : WorkflowStep) (hs : s ∈ readySteps steps cp) :
    s ∈ steps ∧ notProcessed cp s = true := by
  simp only [readySteps, List.mem_filter, Bool.and_eq_true] at hs
  exact ⟨hs.1, hs.2.1⟩

theorem dagLoop_spec (oracle : StepOracle) (steps : List WorkflowStep)
    (hnodup : (steps.map (·.name)).Nodup) :
    ∀ (fuel : Nat) (cp : WorkflowCheckpoint),
      (∀ m ∈ CkptKeys cp, m ∈ steps.map (·.name)) →
      (CkptKeys cp).Nodup →
      (∀ m ∈ CkptKeys (dagLoop oracle steps fuel cp).1, m ∈ steps.map (·.name)) ∧
        (CkptKeys (dagLoop oracle steps fuel cp).1).Nodup ∧
        (steps.countP (notProcessed cp) ≤ fuel →
          readySteps steps (dagLoop oracle steps fuel cp).1 = []) := by
  intro fuel
  induction fuel with
  | zero =>
      intro cp hsub hnd
      refine ⟨hsub, hnd, ?_⟩
      intro hcount
      have hzero : steps.countP (notProcessed cp) = 0 := Nat.le_zero.1 hcount
      rw [List.countP_eq_zero] at hzero
      rw [dagLoop]
      simp only
      rw [readySteps, List.filter_eq_nil_iff]
      intro s hs
      simp only [Bool.and_eq_true, Bool.not_eq_true]
      intro hcontra
      exact absurd (by
        simpa [notProcessed] using hcontra.1 : notProcessed cp s = true)
        (by simpa using hzero s hs)
  | succ fuel ih =>
      intro cp hsub hnd
      by_cases hempty : (readySteps steps cp).isEmpty
      · have hloop : dagLoop oracle steps (fuel + 1) cp = (cp, []) := by
          simp [dagLoop, hempty]
        refine ⟨hloop ▸ hsub, hloop ▸ hnd, ?_⟩
        intro _
        rw [hloop]
        exact List.isEmpty_iff.1 hempty
      · have hready : ∀ s ∈ readySteps steps cp,
            s.name ∈ steps.map (·.name) ∧ s.name ∉ CkptKeys cp := by
          intro s hs
          obtain ⟨hmem, hnp⟩ := readySteps_sub_notProcessed steps cp s hs
          exact ⟨List.mem_map_of_mem (·.name) hmem, (notProcessed_iff cp s).1 hnp⟩
        have hreadynd : ((readySteps steps cp).map (·.name)).Nodup := by
          have hsubl : List.Sublist (readySteps steps cp) steps :=
            List.filter_sublist steps
          exact hnodup.sublist (hsubl.map (·.name))
        obtain ⟨hr_sub, hr_nd, hr_len, hr_mem⟩ :=
          dagRound_spec oracle (steps.map (·.name)) (readySteps steps cp) cp
            hready hreadynd hsub hnd
        have hloop : dagLoop oracle steps (fuel + 1) cp =
            ((dagLoop oracle steps fuel (dagRound oracle cp (readySteps steps cp))).1,
             (readySteps steps cp).map (·.name) ++
               (dagLoop oracle steps fuel (dagRound oracle cp (readySteps steps cp))).2) := by
          rw [dagLoop]
          simp [hempty]
        obtain ⟨ihsub, ihnd, ihready⟩ :=
          ih (dagRound oracle cp (readySteps steps cp)) hr_sub hr_nd
        refine ⟨by rw [hloop]; exact ihsub, by rw [hloop]; exact ihnd, ?_⟩
        intro hcount
        rw [hloop]
        simp only
        apply ihready
        -- the unprocessed count drops by at least the size of the ready set
        set cp' := dagRound oracle cp (readySteps steps cp) with hcp'
        set inReady : WorkflowStep → Bool :=
          fun s => decide (s.name ∈ (readySteps steps cp).map (·.name)) with hinr
        have hsplit := countP_split (notProcessed cp) inReady steps
        have hA : (readySteps steps cp).length ≤
            steps.countP (fun s => notProcessed cp s && inReady s) := by
          have hlen : (readySteps steps cp).length =
              steps.countP (fun s =>
                !((getAssoc s.name cp.completed).isSome ||
                    (getAssoc s.name cp.failed).isSome) &&
                  s.dependsOn.all (fun d => (getAssoc d cp.completed).isSome)) := by
            rw [readySteps, List.countP_eq_length_filter]
          rw [hlen]
          apply List.countP_mono_left
          intro s hs hpred
          have hsready : s ∈ readySteps steps cp := by
            rw [readySteps, List.mem_filter]
            exact ⟨hs, hpred⟩
          have hnp : notProcessed cp s = true := by
            simp only [Bool.and_eq_true] at hpred
            simpa [notProcessed] using hpred.1
          simp only [Bool.and_eq_true, hnp, hinr, true_and, decide_eq_true_eq]
          exact List.mem_map_of_mem (·.name) hsready
        have hB : steps.countP (notProcessed cp') ≤
            steps.countP (fun s => notProcessed cp s && !inReady s) := by
          apply List.countP_mono_left
          intro s _ hpred
          have hnot : s.name ∉ CkptKeys cp' := (notProcessed_iff cp' s).1 hpred
          rw [hr_mem s.name] at hnot
          push_neg at hnot
          simp only [Bool.and_eq_true, Bool.not_eq_true', hinr]
          exact ⟨(notProcessed_iff cp s).2 hnot.1, by simpa using hnot.2⟩
        have hpos : 1 ≤ (readySteps steps cp).length := by
          rcases hmm : readySteps steps cp with _ | ⟨a, b⟩
          · rw [hmm] at hempty; simp at hempty
          · simp
        omega

theorem assocKeys_length (l : List (String × α)) :
    (assocKeys l).length = l.length := by simp [assocKeys]

/-- Claim C5: the DAG executor terminates within at most `steps.length`
scheduling rounds (afterwards no step is ready any more), and the final
status is `done` iff every step name is in `completed` and `failed` is empty;
in every other case — some step failed, or some step never became ready — the
status is `failed`.  The hypotheses say the step names are unique and the
starting checkpoint's maps are well-formed (as a fresh checkpoint's are). -/
theorem workflow_dag_outcome (oracle : StepOracle) (steps : List WorkflowStep)
    (cp : WorkflowCheckpoint)
    (hnodup : (steps.map (·.name)).Nodup)
    (hkeys : ∀ m ∈ CkptKeys cp, m ∈ steps.map (·.name))
    (hnd : (CkptKeys cp).Nodup) :
    ((executeDag oracle steps cp).1.status = .done ↔
      ((∀ s ∈ steps, s.name ∈ assocKeys (executeDag oracle steps cp).1.completed) ∧
        (executeDag oracle steps cp).1.failed = [])) ∧
    ((executeDag oracle steps cp).1.status = .done ∨
      (executeDag oracle steps cp).1.status = .failed) ∧
    readySteps steps (executeDag oracle steps cp).1 = [] := by
  obtain ⟨hsub, hnd1, hready⟩ :=
    dagLoop_spec oracle steps hnodup steps.length cp hkeys hnd
  have hquies := hready (List.countP_le_length _)
  set cp1 := (dagLoop oracle steps steps.length cp).1 with hcp1
  have hcf : (executeDag oracle steps cp).1.completed = cp1.completed := rfl
  have hff : (executeDag oracle steps cp).1.failed = cp1.failed := rfl
  have hrs : readySteps steps (executeDag oracle steps cp).1 =
      readySteps steps cp1 := rfl
  have hst : (executeDag oracle steps cp).1.status =
      (if cp1.completed.length + cp1.failed.length = steps.length then
        (if cp1.failed.length > 0 then CkptStatus.failed else .done)
      else .failed) := rfl
  have hkc_nd : (assocKeys cp1.completed).Nodup := (List.nodup_append.1 hnd1).1
  have hkc_sub : ∀ m ∈ assocKeys cp1.completed, m ∈ steps.map (·.name) :=
    fun m hm => hsub m (List.mem_append_left _ hm)
  constructor
  · rw [hst, hcf, hff]
    constructor
    · intro hdone
      by_cases hall : cp1.completed.length + cp1.failed.length = steps.length
      · rw [if_pos hall] at hdone
        by_cases hf : cp1.failed.length > 0
        · rw [if_pos hf] at hdone; cases hdone
        · have hfe : cp1.failed = [] := List.length_eq_zero.1 (by omega)
          refine ⟨?_, hfe⟩
          have hlen_kc : (assocKeys cp1.completed).length = steps.length := by
            rw [assocKeys_length]
            have hf0 : cp1.failed.length = 0 := by omega
            omega
          have hsub_fin : (assocKeys cp1.completed).toFinset ⊆
              (steps.map (·.name)).toFinset := by
            intro x hx
            simp only [List.mem_toFinset] at *
            exact hkc_sub x hx
          have hcard1 : (assocKeys cp1.completed).toFinset.card = steps.length := by
            rw [List.toFinset_card_of_nodup hkc_nd, hlen_kc]
          have hcard2 : ((steps.map (·.name)).toFinset).card = steps.length := by
            rw [List.toFinset_card_of_nodup hnodup]
            simp
          have hefin : (assocKeys cp1.completed).toFinset =
              (steps.map (·.name)).toFinset :=
            Finset.eq_of_subset_of_card_le hsub_fin (by omega)
          intro s hs
          have hsn : s.name ∈ (steps.map (·.name)).toFinset := by
            simp only [List.mem_toFinset, List.mem_map]
            exact ⟨s, hs, rfl⟩
          rw [← hefin] at hsn
          simpa using hsn
      · rw [if_neg hall] at hdone
        cases hdone
    · rintro ⟨hall, hfe⟩
      have hf0 : cp1.failed.length = 0 := by rw [hfe]; rfl
      have hnames_sub : ∀ m ∈ steps.map (·.name), m ∈ assocKeys cp1.completed := by
        intro m hm
        obtain ⟨s, hsmem, hrfl⟩ := List.mem_map.1 hm
        exact hrfl ▸ hall s hsmem
      have hfin : (assocKeys cp1.completed).toFinset =
          (steps.map (·.name)).toFinset := by
        apply Finset.Subset.antisymm <;> intro x hx <;>
          simp only [List.mem_toFinset] at *
        · exact hkc_sub x hx
        · exact hnames_sub x hx
      have hcards := congrArg Finset.card hfin
      rw [List.toFinset_card_of_nodup hkc_nd,
        List.toFinset_card_of_nodup hnodup] at hcards
      have hclen : cp1.completed.length = steps.length := by
        rw [← assocKeys_length cp1.completed, hcards]
        simp
      rw [if_pos (by omega), if_neg (by omega)]
  · constructor
    · rw [hst]
      by_cases hall : cp1.completed.length + cp1.failed.length = steps.length
      · by_cases hf : cp1.failed.length > 0 <;> simp [hall, hf]
      · simp [hall]
    · rw [hrs]
      exact hquies

/-- The workflow of testable scenario 6: `A`, `B` and `C` with `B` and `C`
depending on `A`. -/
def dagSteps0 : List WorkflowStep :=
  [{ name := "A", task := "a" },
   { name := "B", task := "b", dependsOn := ["A"] },
   { name := "C", task := "c", dependsOn := ["A"] }]

/-- An oracle that fails step `A` and lets every other step produce a result. -/
def dagOracle0 : StepOracle := fun n =>
  if n = "A" then .error "boom" else .ok { result := "ok", durationMs := 1 }

/-- Witness for C5: on the `A ← B, C` workflow with `A` failing, the DAG
executor quiesces and does not report `done`. -/
theorem workflow_dag_outcome_witness :
    ((executeDag dagOracle0 dagSteps0
          (freshCheckpoint "w" .dag ["A", "B", "C"] 0)).1.status = .done ↔
      ((∀ s ∈ dagSteps0, s.name ∈ assocKeys (executeDag dagOracle0 dagSteps0
          (freshCheckpoint "w" .dag ["A", "B", "C"] 0)).1.completed) ∧
        (executeDag dagOracle0 dagSteps0
          (freshCheckpoint "w" .dag ["A", "B", "C"] 0)).1.failed = [])) ∧
    ((executeDag dagOracle0 dagSteps0
        (freshCheckpoint "w" .dag ["A", "B", "C"] 0)).1.status = .done ∨
      (executeDag dagOracle0 dagSteps0
        (freshCheckpoint "w" .dag ["A", "B", "C"] 0)).1.status = .failed) ∧
    readySteps dagSteps0 (executeDag dagOracle0 dagSteps0
        (freshCheckpoint "w" .dag ["A", "B", "C"] 0)).1 = [] :=
  workflow_dag_outcome dagOracle0 dagSteps0
    (freshCheckpoint "w" .dag ["A", "B", "C"] 0)
    (by decide) (by decide) (by decide)

/-! ### C8/C9: admission control, the execute pipeline and result assembly -/

/-- The duplicate-name loop: walk the names keeping those seen, report the
first repeat. -/
def firstDuplicateGo (seen : List String) : List String → Option String
  | [] => none
  | n :: rest => if n ∈ seen then some n else firstDuplicateGo (n :: seen) rest

/-- The DAG dependency check: the first `(step, dep)` whose `dep` names no
step. -/
def firstUnknownDep (names : List String) : List WorkflowStep →
    Option (String × String)
  | [] => none
  | s :: rest =>
      match s.dependsOn.find? (fun d => decide (d ∉ names)) with
      | some d => some (s.name, d)
      | none => firstUnknownDep names rest

inductive Admission where
  | invalid (msg : String)
  | forbidden (msg : String)
  | proceed
deriving DecidableEq, Repr

/-- The DAG-only dependency validation (`if (pattern === "dag") {...}`). -/
def dagDepCheck (pattern : WfPattern) (steps : List WorkflowStep) :
    Option (String × String) :=
  match pattern with
  | .dag => firstUnknownDep (steps.map (·.name)) steps
  | _ => none

/-- Validation and admission of `createWorkflowTool`: empty steps, duplicate
names and unknown DAG dependencies are validation errors; then
`callerDepth >= maxSpawnDepth` (default 1) is rejected `forbidden`; then the
fan-out pre-check, whose outer condition
`activeChildren + steps.length > maxChildren + activeChildren` only rejects
parallel workflows with more steps than `maxChildrenPerAgent` (default 5). -/
def wfAdmission (pattern : WfPattern) (steps : List WorkflowStep)
    (callerDepth : Nat) (cfgMaxSpawnDepth cfgMaxChildren : Option Nat)
    (activeChildren : Nat) : Admission :=
  if steps.length = 0 then .invalid "No steps provided"
  else
    match firstDuplicateGo [] (steps.map (·.name)) with
    | some n => .invalid ("Duplicate step name: " ++ n)
    | none =>
        match dagDepCheck pattern steps with
        | some pr =>
            .invalid ("Step " ++ pr.1 ++ " depends on unknown step " ++ pr.2)
        | none =>
            let maxSpawnDepth := cfgMaxSpawnDepth.getD 1
            if maxSpawnDepth ≤ callerDepth then
              .forbidden "Workflow blocked: spawn depth limit"
            else
              let maxChildren := cfgMaxChildren.getD 5
              if maxChildren + activeChildren < activeChildren + steps.length then
                if pattern = WfPattern.parallel ∧ maxChildren < steps.length then
                  .forbidden "Parallel workflow exceeds maxChildrenPerAgent"
                else .proceed
              else .proceed

inductive StepResults where
  | merged (entries : List (String × String))
  | concatenated (text : String)
deriving DecidableEq, Repr

structure WfRunResult where
  status : CkptStatus
  stepsCompleted : Nat
  stepsFailed : Nat
  totalSteps : Nat
  totalDurationMs : Nat
  results : StepResults
  failures : Option (List (String × String))
  checkpoint : Option String
deriving DecidableEq, Repr

/-- The result-summary block at the end of `createWorkflowTool.execute`:
total duration over `completed`, merged or concatenated results, `failures`
only when non-empty, `checkpoint` path only when status is not `done`, and
the checkpoint file unlinked (the returned Boolean) exactly on `done`. -/
def resultAssembly (cp : WorkflowCheckpoint) (checkpointPath : String)
    (merge : String) (totalSteps : Nat) : WfRunResult × Bool :=
  let totalDuration :=
    (cp.completed.map (fun (pr : String × StepOutcome) => pr.2.durationMs)).sum
  let stepResults :=
    if merge = "merge" then
      StepResults.merged (cp.completed.map (fun pr => (pr.1, pr.2.result)))
    else
      StepResults.concatenated (String.intercalate "\n\n---\n\n"
        (cp.completed.map (fun pr => "## " ++ pr.1 ++ "\n\n" ++ pr.2.result)))
  ({ status := cp.status,
     stepsCompleted := cp.completed.length,
     stepsFailed := cp.failed.length,
     totalSteps := totalSteps,
     totalDurationMs := totalDuration,
     results := stepResults,
     failures := if cp.failed.length > 0 then some cp.failed else none,
     checkpoint := if cp.status ≠ CkptStatus.done then some checkpointPath else none },
   cp.status == CkptStatus.done)

inductive WfOutcome where
  | invalid (msg : String)
  | forbidden (msg : String)
  | ran (res : WfRunResult) (spawned : List String) (checkpointDeleted : Bool)
deriving DecidableEq, Repr

/-- The step names an outcome spawned sub-agents for. -/
def spawnedOf : WfOutcome → List String
  | .ran _ sp _ => sp
  | _ => []

/-- The whole `execute` pipeline: validation and admission, checkpoint
load-or-create, the pattern executor, result assembly. -/
def workflowRun (pattern : WfPattern) (steps : List WorkflowStep)
    (merge label : String) (resume : Bool) (oracle : StepOracle)
    (existing : Option WorkflowCheckpoint) (callerDepth : Nat)
    (cfgMaxSpawnDepth cfgMaxChildren : Option Nat) (activeChildren : Nat)
    (now : Nat) : WfOutcome :=
  match wfAdmission pattern steps callerDepth cfgMaxSpawnDepth cfgMaxChildren
      activeChildren with
  | .invalid msg => .invalid msg
  | .forbidden msg => .forbidden msg
  | .proceed =>
      let workflowId := sanitizeLabel label
      let checkpointPath := "checkpoints/workflow-" ++ workflowId ++ ".json"
      let cp0 := chooseCheckpoint resume existing workflowId pattern
        (steps.map (·.name)) now
      let next :=
        match pattern with
        | .sequential => executeSequential oracle steps cp0
        | .parallel => executeParallel oracle steps cp0
        | .dag => executeDag oracle steps cp0
      let asm := resultAssembly next.1 checkpointPath merge steps.length
      .ran asm.1 next.2 asm.2

/-- Claim C9: in the assembled result of a terminated workflow run, the
checkpoint file is deleted exactly when the final status is `done`; the
`checkpoint` path field is present exactly when the status is not `done`;
and the `failures` field is present exactly when the `failed` map is
non-empty. -/
theorem workflow_result_assembly (cp : WorkflowCheckpoint)
    (path merge : String) (totalSteps : Nat) :
    ((resultAssembly cp path merge totalSteps).2 = true ↔
      cp.status = .done) ∧
    ((resultAssembly cp path merge totalSteps).1.checkpoint =
      if cp.status = .done then none else some path) ∧
    ((resultAssembly cp path merge totalSteps).1.failures =
      if cp.failed.isEmpty then none else some cp.failed) ∧
    (resultAssembly cp path merge totalSteps).1.status = cp.status := by
  refine ⟨?_, ?_, ?_, rfl⟩
  · simp [resultAssembly]
  · by_cases h : cp.status = CkptStatus.done <;> simp [resultAssembly, h]
  · rcases hmm : cp.failed with _ | ⟨p, rest⟩ <;> simp [resultAssembly, hmm]

/-- Witness for C9 at a concrete failed checkpoint. -/
theorem workflow_result_assembly_witness :
    ((resultAssembly
        { workflowId := "w", pattern := .sequential, steps := ["A"],
          completed := [], failed := [("A", "boom")], status := .failed,
          startedAt := 0, updatedAt := 0 } "p.json" "concatenate" 1).2 = true ↔
      ({ workflowId := "w", pattern := .sequential, steps := ["A"],
         completed := [], failed := [("A", "boom")], status := .failed,
         startedAt := 0, updatedAt := 0 } : WorkflowCheckpoint).status = .done) ∧
    ((resultAssembly
        { workflowId := "w", pattern := .sequential, steps := ["A"],
          completed := [], failed := [("A", "boom")], status := .failed,
          startedAt := 0, updatedAt := 0 } "p.json" "concatenate" 1).1.checkpoint =
      if ({ workflowId := "w", pattern := .sequential, steps := ["A"],
            completed := [], failed := [("A", "boom")], status := .failed,
            startedAt := 0, updatedAt := 0 } : WorkflowCheckpoint).status = .done
      then none else some "p.json") ∧
    ((resultAssembly
        { workflowId := "w", pattern := .sequential, steps := ["A"],
          completed := [], failed := [("A", "boom")], status := .failed,
          startedAt := 0, updatedAt := 0 } "p.json" "concatenate" 1).1.failures =
      if ([("A", "boom")] : List (String × String)).isEmpty then none
      else some [("A", "boom")]) ∧
    (resultAssembly
        { workflowId := "w", pattern := .sequential, steps := ["A"],
          completed := [], failed := [("A", "boom")], status := .failed,
          startedAt := 0, updatedAt := 0 } "p.json" "concatenate" 1).1.status =
      CkptStatus.failed :=
  workflow_result_assembly
    { workflowId := "w", pattern := .sequential, steps := ["A"],
      completed := [], failed := [("A", "boom")], status := .failed,
      startedAt := 0, updatedAt := 0 } "p.json" "concatenate" 1

theorem firstDuplicateGo_eq_none :
    ∀ (l : List String) (seen : List String), l.Nodup →
      (∀ n ∈ l, n ∉ seen) → firstDuplicateGo seen l = none := by
  intro l
  induction l with
  | nil => intro seen _ _; rfl
  | cons n rest ih =>
      intro seen hnd hseen
      rw [firstDuplicateGo, if_neg (hseen n (List.mem_cons_self n rest))]
      rcases List.nodup_cons.1 hnd with ⟨hn, hrest⟩
      apply ih _ hrest
      intro m hm
      rw [List.mem_cons]
      push_neg
      exact ⟨fun hc => hn (hc ▸ hm), hseen m (List.mem_cons_of_mem _ hm)⟩

theorem firstUnknownDep_eq_none (names : List String) :
    ∀ steps : List WorkflowStep,
      (∀ s ∈ steps, ∀ d ∈ s.dependsOn, d ∈ names) →
      firstUnknownDep names steps = none := by
  intro steps
  induction steps with
  | nil => intro _; rfl
  | cons s rest ih =>
      intro h
      rw [firstUnknownDep]
      have hfind : s.dependsOn.find? (fun d => decide (d ∉ names)) = none := by
        rw [List.find?_eq_none]
        intro d hd
        simp only [decide_eq_true_eq]
        push_neg
        exact h s (List.mem_cons_self s rest) d hd
      rw [hfind]
      exact ih (fun s' hs' => h s' (List.mem_cons_of_mem _ hs'))

/-- Claim C8: with valid steps (non-empty, unique names, known DAG deps), a
request whose caller depth is at least `maxSpawnDepth` (default 1) is
rejected `forbidden` with nothing spawned; a parallel request with more steps
than `maxChildrenPerAgent` (default 5) is likewise rejected; sequential and
dag requests are never rejected on step count at admission, and an in-limit
parallel request also proceeds. -/
theorem workflow_admission (pattern : WfPattern) (steps : List WorkflowStep)
    (merge label : String) (resume : Bool) (oracle : StepOracle)
    (existing : Option WorkflowCheckpoint) (callerDepth : Nat)
    (cfgD cfgC : Option Nat) (active now : Nat)
    (hne : steps ≠ [])
    (hnodup : (steps.map (·.name)).Nodup)
    (hdeps : pattern = .dag → ∀ s ∈ steps, ∀ d ∈ s.dependsOn, d ∈ steps.map (·.name)) :
    (cfgD.getD 1 ≤ callerDepth →
      workflowRun pattern steps merge label resume oracle existing callerDepth
          cfgD cfgC active now = .forbidden "Workflow blocked: spawn depth limit" ∧
      spawnedOf (workflowRun pattern steps merge label resume oracle existing
        callerDepth cfgD cfgC active now) = []) ∧
    (callerDepth < cfgD.getD 1 → pattern = .parallel →
      cfgC.getD 5 < steps.length →
      workflowRun pattern steps merge label resume oracle existing callerDepth
          cfgD cfgC active now =
        .forbidden "Parallel workflow exceeds maxChildrenPerAgent" ∧
      spawnedOf (workflowRun pattern steps merge label resume oracle existing
        callerDepth cfgD cfgC active now) = []) ∧
    (callerDepth < cfgD.getD 1 → (pattern = .sequential ∨ pattern = .dag) →
      ∃ res sp del, workflowRun pattern steps merge label resume oracle existing
        callerDepth cfgD cfgC active now = .ran res sp del) ∧
    (callerDepth < cfgD.getD 1 → pattern = .parallel →
      steps.length ≤ cfgC.getD 5 →
      ∃ res sp del, workflowRun pattern steps merge label resume oracle existing
        callerDepth cfgD cfgC active now = .ran res sp del) := by
  have hlen : ¬(steps.length = 0) := by
    cases steps with
    | nil => exact absurd rfl hne
    | cons a b => simp
  have hdup : firstDuplicateGo [] (steps.map (·.name)) = none :=
    firstDuplicateGo_eq_none _ [] hnodup (by simp)
  have hunk : dagDepCheck pattern steps = none := by
    cases hpat : pattern with
    | dag =>
        simp [dagDepCheck,
          firstUnknownDep_eq_none (steps.map (·.name)) steps (hdeps hpat)]
    | sequential => rfl
    | parallel => rfl
  refine ⟨?_, ?_, ?_, ?_⟩
  · intro hdepth
    have hadm : wfAdmission pattern steps callerDepth cfgD cfgC active =
        .forbidden "Workflow blocked: spawn depth limit" := by
      rw [wfAdmission, if_neg hlen, hdup, hunk]
      simp only
      rw [if_pos hdepth]
    rw [workflowRun, hadm]
    exact ⟨rfl, rfl⟩
  · intro hdepth hpar hfan
    have hadm : wfAdmission pattern steps callerDepth cfgD cfgC active =
        .forbidden "Parallel workflow exceeds maxChildrenPerAgent" := by
      rw [wfAdmission, if_neg hlen, hdup, hunk]
      simp only
      rw [if_neg (by omega), if_pos (by omega), if_pos ⟨hpar, hfan⟩]
    rw [workflowRun, hadm]
    exact ⟨rfl, rfl⟩
  · intro hdepth hpat
    have hnotpar : ¬(pattern = WfPattern.parallel ∧ cfgC.getD 5 < steps.length) := by
      rintro ⟨hp, _⟩
      rcases hpat with h | h <;> rw [h] at hp <;> cases hp
    have hadm : wfAdmission pattern steps callerDepth cfgD cfgC active =
        .proceed := by
      rw [wfAdmission, if_neg hlen, hdup, hunk]
      simp only
      rw [if_neg (by omega)]
      by_cases hout : cfgC.getD 5 + active < active + steps.length
      · rw [if_pos hout, if_neg hnotpar]
      · rw [if_neg hout]
    rw [workflowRun, hadm]
    exact ⟨_, _, _, rfl⟩
  · intro hdepth hpar hfan
    have hadm : wfAdmission pattern steps callerDepth cfgD cfgC active =
        .proceed := by
      rw [wfAdmission, if_neg hlen, hdup, hunk]
      simp only
      rw [if_neg (by omega), if_neg (by omega)]
    rw [workflowRun, hadm]
    exact ⟨_, _, _, rfl⟩

/-- Witness for C8: a single sequential step at caller depth 1 with the
default `maxSpawnDepth` of 1 is rejected `forbidden` and spawns nothing. -/
theorem workflow_admission_witness :
    workflowRun .sequential [{ name := "A", task := "a" }] "concatenate" "w"
        false dagOracle0 none 1 none none 0 0 =
      .forbidden "Workflow blocked: spawn depth limit" ∧
    spawnedOf (workflowRun .sequential [{ name := "A", task := "a" }]
      "concatenate" "w" false dagOracle0 none 1 none none 0 0) = [] :=
  (workflow_admission .sequential [{ name := "A", task := "a" }] "concatenate"
    "w" false dagOracle0 none 1 none none 0 0 (by decide) (by decide)
    (by decide)).1 (by decide)

end OpenClaw
